import Mathlib

/-!
Verification of the audio-steganography toolkit specification against a
shallow embedding of the source.

The embedding follows `src/audio_steganography`:
 * `audio_utils.py` : segment splitters, bit spreader, dtype conversion,
   center/normalize, consecutive-run detector;
 * `methods/lsb.py` : LSB substitution encode/decode over integer samples;
 * `methods/echo_base.py` and the four echo kernels;
 * `methods/dsss.py`, `methods/phase_coding.py`,
   `methods/silence_interval.py`, `methods/tone_insertion.py`.

Sample values are modelled over a linear ordered field (instantiated at ℚ
for executable claims and at ℝ for the FFT-based methods).  NumPy integer
arrays are modelled as `List ℤ`; machine-width overflow does not occur in
any modelled operation (LSB masking keeps each sample in its original
range).  NumPy exceptions (`ValueError` from `np.array_split` with zero
sections or from an invalid bit depth) and the toolkit's
`SecretSizeTooLarge` are modelled with `Except`/`Option` results.
-/

namespace AStego

/-- Supported NumPy sample dtypes (spec §3, §6). -/
inductive Dtype
| u8 | i16 | i32 | i64 | f16 | f32 | f64
deriving DecidableEq

/-- Whether the dtype is a floating-point dtype. -/
def Dtype.isFloat : Dtype → Bool
| .f16 => true
| .f32 => true
| .f64 => true
| _ => false

/-- The scaling maximum used by `to_dtype` (`np.iinfo(dtype).max`); the
source keeps `max = 1.0` for float dtypes (the `ValueError` branch of
`np.iinfo`). -/
def Dtype.maxvalNat : Dtype → ℕ
| .u8 => 255
| .i16 => 32767
| .i32 => 2147483647
| .i64 => 9223372036854775807
| _ => 1

/-- Bit width of the dtype (`np.iinfo(dtype).bits` for the integer view). -/
def Dtype.bits : Dtype → ℕ
| .u8 => 8
| .i16 => 16
| .i32 => 32
| .f16 => 16
| .f32 => 32
| _ => 64

/-- The raw-bytes reinterpretation table `dtype_conv` of `lsb.py`:
float dtypes map to the same-width integer dtype, integer dtypes pass
through. -/
def dtype_conv : Dtype → Dtype
| .f64 => .i64
| .f32 => .i32
| .f16 => .i16
| d => d

/-- A single-channel signal: samples plus their dtype (spec §3). -/
structure Signal (α : Type) where
  dtype : Dtype
  data : List α

/-- Errors raised by the methods: `SecretSizeTooLarge` from
`exceptions.py`, and Python `ValueError` (invalid depth, `d0 ≥ d1`,
`np.array_split` with zero sections). -/
inductive StegoError
| secretTooLarge
| valueError
deriving DecidableEq

variable {α : Type} [LinearOrderedField α] [FloorRing α] {β γ : Type}

/-- `np.array_split(x, k)` for `k > 0`: with `len = q*k + r`, the first
`r` pieces have length `q+1` and the rest length `q`. -/
def array_split (x : List β) (k : ℕ) : List (List β) :=
  let q := x.length / k
  let r := x.length % k
  (List.range k).map fun i => ((x.drop (i * q + min i r)).take (q + if i < r then 1 else 0))

/-- `split_to_n_segments` (audio_utils.py): `n` segments of equal length
`len/n` plus the rest sliced off for alignment.  `np.array_split` raises
`ValueError` for `n = 0`, modelled as `none`. -/
def split_to_n_segments (input : List β) (n : ℕ) : Option (List (List β) × List β) :=
  if n = 0 then none
  else
    some (array_split (input.take (input.length / n * n)) n, input.drop (input.length / n * n))

/-- `split_to_segments_of_approx_len_n` (audio_utils.py):
`np.array_split(input, ceil(len/n))`; empty input returns `[empty]`. -/
def split_to_segments_of_approx_len_n (input : List β) (n : ℕ) : List (List β) :=
  if input.length = 0 then [[]]
  else array_split input ((input.length + n - 1) / n)

/-- `split_to_segments_of_len_n` (audio_utils.py): segments of exactly
length `n` plus the rest.  For nonempty input shorter than `n` the source
calls `np.array_split(_, 0)` which raises `ValueError`, modelled as
`none`.  (`phase_coding.py` imports this function under its older name
`seg_split_len_n_exact`.) -/
def split_to_segments_of_len_n (input : List β) (n : ℕ) : Option (List (List β) × List β) :=
  if input.length = 0 then some ([], [])
  else if input.length / n = 0 then none
  else
    some (array_split (input.take (input.length / n * n)) (input.length / n),
      input.drop (input.length / n * n))

/-- `spread_bits` (audio_utils.py, imported by several methods under its
older name `mixer_sig`): split an all-ones carrier of length
`signal_length` into `len(secret_data)` equal segments, scale segment `i`
by `secret_data[i]`, and append the alignment rest of the carrier.  The
rest consists of the carrier's unscaled ones.  `none` models the
`ValueError` of `np.array_split` when `secret_data` is empty. -/
def spread_bits (secret_data : List α) (signal_length : ℕ) : Option (List α) :=
  match split_to_n_segments (List.replicate signal_length (1 : α)) secret_data.length with
  | none => none
  | some (mixer, rest) =>
      some ((List.zipWith (fun seg b => seg.map fun x => x * b) mixer secret_data).flatten ++ rest)

/-- Whether the dtype is a signed integer dtype. -/
def Dtype.isSigned : Dtype → Bool
| .i16 => true
| .i32 => true
| .i64 => true
| _ => false

/-- Truncation toward zero: the first half of what `numpy.ndarray.astype`
does when casting a float array to an integer dtype. -/
def truncToInt (q : α) : ℤ := if 0 ≤ q then ⌊q⌋ else ⌈q⌉

/-- The second half of `astype` to an integer dtype: wrap the truncated
value into the target dtype's representable range (two's-complement wrap
for signed targets, reduction mod `2^bits` for unsigned ones), as NumPy
does for out-of-range values (e.g. `-255.01` cast to `uint8` gives 1). -/
def Dtype.wrapInt (d : Dtype) (z : ℤ) : ℤ :=
  if d.isSigned then (z + 2 ^ (d.bits - 1)) % 2 ^ d.bits - 2 ^ (d.bits - 1)
  else z % 2 ^ d.bits

/-- `to_dtype` (audio_utils.py): divide by the maximum of the input dtype,
multiply by the maximum of the output dtype (both `1.0` for floats), and
`astype` the result.  The `astype` to an integer dtype truncates toward
zero and wraps into the target range; to a float dtype it is modelled as
the identity on exact values. -/
def to_dtype (input : List α) (srcDtype dstDtype : Dtype) : List α :=
  let out := input.map fun x => x / (srcDtype.maxvalNat : α)
  let out := out.map fun x => x * (dstDtype.maxvalNat : α)
  if dstDtype.isFloat then out
  else out.map fun x => ((dstDtype.wrapInt (truncToInt x) : ℤ) : α)

/-- Modelled from the spec: the spec's §4.1 description of the
dtype-preserving cast, which rounds (`y = (round)(f * maxval(U))`) rather
than truncating.  Kept only to compare with `to_dtype` above. -/
def to_dtype_round (input : List α) (srcDtype dstDtype : Dtype) : List α :=
  let out := input.map fun x => x / (srcDtype.maxvalNat : α)
  let out := out.map fun x => x * (dstDtype.maxvalNat : α)
  if dstDtype.isFloat then out
  else out.map fun x => ((round x : ℤ) : α)

/-- `center` (audio_utils.py): subtract the mean.  (The source's
`np.mean` of an empty array is NaN; all call sites pass nonempty data.) -/
def center (input : List α) : List α :=
  input.map fun x => x - input.sum / (input.length : α)

/-- `np.abs(input).max()` with `0` for the empty array (the source never
takes the max of an empty array on the paths modelled here). -/
def maxAbs (input : List α) : α :=
  (input.map fun x => |x|).foldr max 0

/-- `normalize` (audio_utils.py): divide by the maximum absolute value
when the input is nonempty and that maximum is nonzero. -/
def normalize (input : List α) : List α :=
  if input.length > 0 ∧ maxAbs input ≠ 0 then input.map fun x => x / maxAbs input
  else input

/-- `consecutive_values` (audio_utils.py): starting indices and lengths of
runs of equal consecutive values.  `diff[0] = True`, `diff[i] =
(input[i] ≠ input[i-1])`; starts are the indices of `True`, lengths the
gaps between consecutive starts (with the array length appended). -/
def consecutive_values (input : List Bool) : List ℕ × List ℕ :=
  if input.isEmpty then ([], [])
  else
    let starts := (List.range input.length).filter fun i =>
      i = 0 ∨ input.getD i false ≠ input.getD (i - 1) false
    (starts, List.zipWith (fun a b => b - a) starts (starts.drop 1 ++ [input.length]))

/-- `np.split(x, idx)` for a list of split indices: pieces
`x[0:i1], x[i1:i2], …, x[ik:]`; `prev` carries the previous index. -/
def np_split (x : List β) : List ℕ → ℕ → List (List β)
| [], prev => [x.drop prev]
| i :: rest, prev => ((x.drop prev).take (i - prev)) :: np_split x rest i

/-- `np.packbits(row, bitorder='little')` on one row of 0/1 values: every
8 bits become one byte, least significant bit first; a final incomplete
group is zero-padded. -/
def packRow (row : List ℕ) : List ℕ :=
  (List.range ((row.length + 7) / 8)).map fun j =>
    ((List.range 8).map fun t => row.getD (8 * j + t) 0 * 2 ^ t).sum

/-- `LSB.encode` (methods/lsb.py) on the integer view of the samples.
`dtypeBits` is the bit width of the (possibly raw-bytes converted) source
dtype; `randomTail` stands for the values the source draws from the
unseeded global NumPy PRNG (`np.random.randint(0, 2**depth, …)`) to fill
the cover tail when `only_needed` is false — it is an input here because
it is not a function of cover, payload or options.  For values
`c < 2^depth` the source's clear-low-bits-then-or step
`(s & ~(2^depth − 1)) | c` equals `s - s % 2^depth + c`, which is how it
is written below (two's complement; no overflow since the high bits are
unchanged).  Empty payload returns the source with `l = 0`; an invalid
depth raises `ValueError`; the capacity check compares the size of the
regrouped (zero-padded) payload against the cover length and raises
`SecretSizeTooLarge`. -/
def lsb_encode (source : List ℤ) (secret : List ℕ) (dtypeBits depth : ℕ)
    (only_needed : Bool) (randomTail : List ℕ) : Except StegoError (List ℤ × ℕ) :=
  if secret.length = 0 then .ok (source, 0)
  else if depth < 1 ∨ depth > dtypeBits then .error .valueError
  else
    let padded := secret ++
      List.replicate ((secret.length + depth - 1) / depth * depth - secret.length) 0
    -- secret.size after the depth > 1 regrouping is the whole padded 2-D
    -- array's element count, ceil(l/depth) * depth
    let checkSize := if depth > 1 then padded.length else secret.length
    if checkSize > source.length then .error .secretTooLarge
    -- the tail randomisation always runs: np.random.randint(0, 2**depth, …)
    -- validates its bounds first and raises ValueError when the exclusive
    -- high 2^depth exceeds int64's range (2^63), i.e. at depth = 64
    else if 2 ^ depth > 2 ^ 63 then .error .valueError
    else
      let chunkVals : List ℕ :=
        if depth > 1 then
          ((split_to_segments_of_approx_len_n padded depth).map packRow).flatten
        else secret
      let filled := chunkVals ++ randomTail
      let stego :=
        if only_needed then
          (List.zipWith (fun s c => s - s % (2 ^ depth : ℤ) + c)
            (source.take chunkVals.length) (chunkVals.map (Nat.cast : ℕ → ℤ)))
            ++ source.drop chunkVals.length
        else
          List.zipWith (fun s c => s - s % (2 ^ depth : ℤ) + c) source
            (filled.map (Nat.cast : ℕ → ℤ))
      .ok (stego, secret.length)

/-- `LSB.decode` (methods/lsb.py) on the integer view of the samples:
take the low `depth` bits of the first `l` samples (cast to `uint8`,
hence the `% 256`), unpack each byte into 8 little-endian bits, zero-pad
to a multiple of `chunk_size = ceil(depth/8)*8`, regroup, keep the first
`depth` bits of each group, flatten and truncate to `l`. -/
def lsb_decode (source : List ℤ) (dtypeBits depth : ℕ) (l : Option ℕ) :
    Except StegoError (List ℕ) :=
  if depth < 1 ∨ depth > dtypeBits then .error .valueError
  else
    let len := l.getD source.length
    let lsb : List ℕ := (source.take len).map fun s => (s % (2 ^ depth : ℤ)).toNat % 256
    let unpacked := lsb.flatMap fun v => (List.range 8).map fun t => v / 2 ^ t % 2
    let chunkSize := (depth + 7) / 8 * 8
    let padded := unpacked ++
      List.replicate ((unpacked.length + chunkSize - 1) / chunkSize * chunkSize
        - unpacked.length) 0
    let groups := split_to_segments_of_approx_len_n padded chunkSize
    .ok ((groups.map fun g => g.take depth).flatten.take len)

/-- NumPy 1.x value-based promotion of
`np.bitwise_and(source, np.bitwise_not(2**depth - 1))`: the mask scalar
is the negative Python int `-(2^depth)`, so a `u8` cover promotes to
`i16` (negative scalar, unsigned array) for every depth, and a signed
cover at `depth = bit width` promotes to the next wider signed dtype
(the scalar no longer fits).  For signed covers with `depth < bit width`
the scalar fits and the dtype is unchanged.  (`i64` at depth 64 never
reaches the bitwise step: `np.random.randint` raises first.) -/
def lsb_mask_promote (d : Dtype) (depth : ℕ) : Dtype :=
  match d with
  | .u8 => .i16
  | .i16 => if depth ≤ 15 then .i16 else .i32
  | .i32 => if depth ≤ 31 then .i32 else .i64
  | d => d

/-- `LSB.encode` at the signal level: a float-dtype cover is reinterpreted
through raw bytes as the same-width integer dtype of `dtype_conv`
(`s.data` holds that integer view; the bit-pattern bijection itself is
not value-modelled), the integer encode runs with that dtype's bit width,
and a float cover is reinterpreted back to the source dtype
(`np.frombuffer(..., dtype=self._source_data.dtype)`).  An integer cover
gets NO final cast: the stego keeps the dtype the bitwise masking
promoted to (`lsb_mask_promote`); an empty payload returns the cover
unchanged. -/
def lsb_encode_sig (s : Signal ℤ) (secret : List ℕ) (depth : ℕ)
    (only_needed : Bool) (randomTail : List ℕ) : Except StegoError (Signal ℤ × ℕ) :=
  if secret.length = 0 then .ok (⟨s.dtype, s.data⟩, 0)
  else
    match lsb_encode s.data secret (dtype_conv s.dtype).bits depth only_needed randomTail with
    | .error e => .error e
    | .ok (st, l) =>
        if s.dtype.isFloat then .ok (⟨s.dtype, st⟩, l)
        else .ok (⟨lsb_mask_promote s.dtype depth, st⟩, l)

/-- `EchoBase.encode_wrapper` (methods/echo_base.py), generic in the
concrete kernel `encodeFn` so that it covers all four echo variants.
Checks run in source order: `d0 ≥ d1`, non-positive delays (both
`ValueError`), then the 1024-samples-per-bit capacity check
(`SecretSizeTooLarge`), and only then is a kernel invoked.  The
delay-search branches (`_encode_bruteforce`, `_encode_basinhopping`)
drive the same `_encode` through a BER-minimising search whose selected
delay pair is abstracted as `searchPick`: every value those branches
return is `encodeFn` applied to some pair, which is the only fact the
claims use. -/
def encode_wrapper (encodeFn : ℤ → ℤ → β) (secretLen sourceLen : ℕ)
    (d0? d1? : Option ℤ) (delay_search : String) (searchPick : ℤ × ℤ) :
    Except StegoError β :=
  let d0 := d0?.getD 150
  let d1 := d1?.getD (d0 + 50)
  if d0 ≥ d1 then .error .valueError
  else if d0 ≤ 0 ∨ d1 ≤ 0 then .error .valueError
  else if secretLen * 1024 > sourceLen then .error .secretTooLarge
  else if delay_search = "bruteforce" then .ok (encodeFn searchPick.1 searchPick.2)
  else if delay_search = "basinhopping" then .ok (encodeFn searchPick.1 searchPick.2)
  else .ok (encodeFn d0 d1)

/-- `EchoSingle._encode` (methods/echo_single.py).  The bit mixer is
`mixer_sig` = `spread_bits`; its `getD []` branch is unreachable because
the empty-payload case returns early.  `np.pad(source, (d1, 0))` puts
`d1` zeros in front; the elementwise sum is truncated to the mixer's
length (`[:len(mixer)]`), then centred, normalised and cast back to the
source dtype.  Side values mirror the returned `{'d0','d1','l'}` (all
`-1` on the degenerate branch). -/
def echo_single_encode_core (s : Signal α) (secret : List α) (d0 d1 : ℤ)
    (alpha decay_rate : α) : Signal α × (ℤ × ℤ × ℤ) :=
  if secret.length = 0 ∨ d0 ≥ d1 then (⟨s.dtype, s.data⟩, (-1, -1, -1))
  else
    let mixer := (spread_bits secret s.data.length).getD []
    let source_pad := (List.replicate d1.toNat 0 ++ s.data).map fun x => x * alpha
    let echo_0 := source_pad.drop (d1 - d0).toNat
    let echo_1 := source_pad.map fun x => x * decay_rate
    let encoded := (List.range mixer.length).map fun i =>
      s.data.getD i 0 + echo_1.getD i 0 * mixer.getD i 0
        + echo_0.getD i 0 * |1 - mixer.getD i 0|
    (⟨s.dtype, to_dtype (normalize (center encoded)) .f64 s.dtype⟩,
      (d0, d1, (secret.length : ℤ)))

/-- `EchoBipolar._encode` (methods/echo_bipolar.py): per bit value a
negative echo at delay `d` and a positive echo at `d + 5`, both at
amplitude `alpha/2`, mixed by the spread payload, then centre, normalise,
cast. -/
def echo_bipolar_encode_core (s : Signal α) (secret : List α) (d0 d1 : ℤ)
    (alpha _decay_rate : α) : Signal α × (ℤ × ℤ × ℤ) :=
  if secret.length = 0 then (⟨s.dtype, s.data⟩, (d0, d1, 0))
  else
    let mixer := (spread_bits secret s.data.length).getD []
    let h01 := (List.replicate d0.toNat 0 ++ s.data).map fun x => x * (-alpha / 2)
    let h02 := (List.replicate (d0 + 5).toNat 0 ++ s.data).map fun x => x * (alpha / 2)
    let h11 := (List.replicate d1.toNat 0 ++ s.data).map fun x => x * (-alpha / 2)
    let h12 := (List.replicate (d1 + 5).toNat 0 ++ s.data).map fun x => x * (alpha / 2)
    let encoded := (List.range mixer.length).map fun i =>
      s.data.getD i 0 + h11.getD i 0 * mixer.getD i 0 + h12.getD i 0 * mixer.getD i 0
        + h01.getD i 0 * |1 - mixer.getD i 0| + h02.getD i 0 * |1 - mixer.getD i 0|
    (⟨s.dtype, to_dtype (normalize (center encoded)) .f64 s.dtype⟩,
      (d0, d1, (secret.length : ℤ)))

/-- `EchoBF._encode` (methods/echo_bf.py): `np.pad(source, d1)` pads `d1`
zeros on both sides; forward echoes are the slices starting at `d1 - d`
and backward echoes the slices starting at `d1 + d`, all at amplitude
`alpha/2`. -/
def echo_bf_encode_core (s : Signal α) (secret : List α) (d0 d1 : ℤ)
    (alpha _decay_rate : α) : Signal α × (ℤ × ℤ × ℤ) :=
  if secret.length = 0 ∨ d0 ≥ d1 then (⟨s.dtype, s.data⟩, (-1, -1, 0))
  else
    let mixer := (spread_bits secret s.data.length).getD []
    let source_pad := (List.replicate d1.toNat 0 ++ s.data ++ List.replicate d1.toNat 0).map
      fun x => x * (alpha / 2)
    let echo_0_fwd := source_pad.drop (d1 - d0).toNat
    let echo_0_bwd := source_pad.drop (d1 + d0).toNat
    let echo_1_fwd := source_pad
    let echo_1_bwd := source_pad.drop (d1 + d1).toNat
    let encoded := (List.range mixer.length).map fun i =>
      s.data.getD i 0 + echo_1_fwd.getD i 0 * mixer.getD i 0
        + echo_1_bwd.getD i 0 * mixer.getD i 0
        + echo_0_fwd.getD i 0 * |1 - mixer.getD i 0|
        + echo_0_bwd.getD i 0 * |1 - mixer.getD i 0|
    (⟨s.dtype, to_dtype (normalize (center encoded)) .f64 s.dtype⟩,
      (d0, d1, (secret.length : ℤ)))

/-- `EchoBipolarBF._encode` (methods/echo_bipolar_bf.py): four echoes per
bit value at amplitude `alpha/4` (one negated at delay `d + 5`);
`np.pad(source, (0, d))` pads at the end, so the first `len(mixer)`
samples of those backward kernels coincide with the source itself. -/
def echo_bipolar_bf_encode_core (s : Signal α) (secret : List α) (d0 d1 : ℤ)
    (alpha _decay_rate : α) : Signal α × (ℤ × ℤ × ℤ) :=
  if secret.length = 0 then (⟨s.dtype, s.data⟩, (d0, d1, 0))
  else
    let mixer := (spread_bits secret s.data.length).getD []
    let h01 := (List.replicate d0.toNat 0 ++ s.data).map fun x => x * (alpha / 4)
    let h02 := (s.data ++ List.replicate d0.toNat 0).map fun x => x * (alpha / 4)
    let h03 := (List.replicate (d0 + 5).toNat 0 ++ s.data).map fun x => x * (-alpha / 4)
    let h04 := (s.data ++ List.replicate (d0 + 5).toNat 0).map fun x => x * (alpha / 4)
    let h11 := (List.replicate d1.toNat 0 ++ s.data).map fun x => x * (alpha / 4)
    let h12 := (s.data ++ List.replicate d1.toNat 0).map fun x => x * (alpha / 4)
    let h13 := (List.replicate (d1 + 5).toNat 0 ++ s.data).map fun x => x * (-alpha / 4)
    let h14 := (s.data ++ List.replicate (d1 + 5).toNat 0).map fun x => x * (alpha / 4)
    let encoded := (List.range mixer.length).map fun i =>
      s.data.getD i 0 + h11.getD i 0 * mixer.getD i 0 + h12.getD i 0 * mixer.getD i 0
        + h13.getD i 0 * mixer.getD i 0 + h14.getD i 0 * mixer.getD i 0
        + h01.getD i 0 * |1 - mixer.getD i 0| + h02.getD i 0 * |1 - mixer.getD i 0|
        + h03.getD i 0 * |1 - mixer.getD i 0| + h04.getD i 0 * |1 - mixer.getD i 0|
    (⟨s.dtype, to_dtype (normalize (center encoded)) .f64 s.dtype⟩,
      (d0, d1, (secret.length : ℤ)))

/-- `DSSS.encode` (methods/dsss.py).  `pn_sequence` stands for the ±1
sequence drawn from `np.random.RandomState` seeded with the SHA-256 of
the password — a fixed deterministic function of the password, taken here
as an input (SHA-256 and the Mersenne Twister are not value-modelled).
The payload is spread over the cover length and mapped to ±1
(`mixer * 2 - 1`), the centred and normalised cover gets
`mixer * alpha * pn` added, and the result is centred, normalised and
cast back to the source dtype. -/
def dsss_encode (s : Signal α) (secret : List α) (pn_sequence : List α) (alpha : α) :
    Except StegoError (Signal α × ℕ) :=
  if secret.length = 0 then .ok (⟨s.dtype, s.data⟩, 0)
  else if s.data.length < secret.length then .error .secretTooLarge
  else
    let mixer := ((spread_bits secret s.data.length).getD []).map fun x => x * 2 - 1
    let source := normalize (center s.data)
    let encoded := (List.range mixer.length).map fun i =>
      source.getD i 0 + mixer.getD i 0 * alpha * pn_sequence.getD i 0
    .ok (⟨s.dtype, to_dtype (normalize (center encoded)) .f64 s.dtype⟩, secret.length)

/-- Silence detection as in `SilenceInterval` (methods/silence_interval.py):
a sample is silent when `|s| ≤ 0.15 * max |cover|`. -/
def silence_flags (source : List α) : List Bool :=
  source.map fun v => decide (|v| ≤ 0.15 * maxAbs source)

/-- The cover's silence-delimited segments: `np.split` of the cover at
the silence-run start indices (dropping the first). -/
def silence_segments (source : List α) : List (List α) :=
  np_split source ((consecutive_values (silence_flags source)).1.drop 1) 0

/-- One iteration of `SilenceInterval.encode`'s segment walk: if bytes
remain to place, try to shorten the segment to
`new_len = len - ((len - byte) mod 16)`; skip segments that are (or
would become) shorter than `min_silence_len`; past the last byte,
segments pass through verbatim. -/
def silence_step (secretBytes : List ℕ) (min_silence_len : ℕ)
    (acc : List (List α) × ℕ) (segment : List α) : List (List α) × ℕ :=
  if acc.2 = secretBytes.length then (acc.1 ++ [segment], acc.2)
  else
    let b := secretBytes.getD acc.2 0
    let new_len : ℤ := (segment.length : ℤ) - ((segment.length : ℤ) - b) % 16
    if (segment.length : ℤ) < min_silence_len ∨ new_len < min_silence_len then
      (acc.1 ++ [segment], acc.2)
    else (acc.1 ++ [segment.take new_len.toNat], acc.2 + 1)

/-- `SilenceInterval.encode` (methods/silence_interval.py): pad the
payload to a multiple of 4 bits, pack each 4-bit group little-endian into
a byte, check the rough capacity (count of silence runs strictly longer
than `min_silence_len`), then walk the silence-delimited segments in
order with `silence_step`.  If the walk does not place every byte, raise
`SecretSizeTooLarge`; otherwise concatenate. -/
def silence_encode (source : List α) (secret : List ℕ) (min_silence_len : ℕ) :
    Except StegoError (List α × ℕ) :=
  if secret.length = 0 then .ok (source, 0)
  else
    let silence_lens := (consecutive_values (silence_flags source)).2
    let padded := secret ++ List.replicate ((secret.length + 3) / 4 * 4 - secret.length) 0
    match split_to_segments_of_len_n padded 4 with
    | none => .error .valueError
    | some (groups, _) =>
      let secretBytes := (groups.map packRow).flatten
      if (silence_lens.filter fun x => min_silence_len < x).length < secretBytes.length then
        .error .secretTooLarge
      else
        let walked := (silence_segments source).foldl
          (silence_step secretBytes min_silence_len) ([], 0)
        if walked.2 ≠ secretBytes.length then .error .secretTooLarge
        else .ok (walked.1.flatten, secret.length)

/-- Bin `k` of the discrete Fourier transform (`np.fft.fft`) of `x`. -/
noncomputable def dft (x : List ℂ) (k : ℕ) : ℂ :=
  ∑ j ∈ Finset.range x.length,
    x.getD j 0 * Complex.exp (-2 * (Real.pi : ℂ) * Complex.I * j * k / x.length)

/-- Bin `k` of the inverse discrete Fourier transform (`np.fft.ifft`). -/
noncomputable def idft (x : List ℂ) (k : ℕ) : ℂ :=
  (∑ j ∈ Finset.range x.length,
    x.getD j 0 * Complex.exp (2 * (Real.pi : ℂ) * Complex.I * j * k / x.length)) / x.length

/-- `np.fft.fft` as a list of bins. -/
noncomputable def fft_list (x : List ℂ) : List ℂ :=
  (List.range x.length).map (dft x)

/-- `np.fft.ifft` as a list of bins. -/
noncomputable def ifft_list (x : List ℂ) : List ℂ :=
  (List.range x.length).map (idft x)

/-- `np.fft.rfft`: the first `n/2 + 1` bins of the DFT of a real input. -/
noncomputable def rfft (x : List ℝ) : List ℂ :=
  (List.range (x.length / 2 + 1)).map (dft (x.map Complex.ofReal))

/-- `np.fft.irfft` with its default output length `2*(m - 1)`: extend the
half spectrum hermitianly and take the real parts of the inverse DFT. -/
noncomputable def irfft (half : List ℂ) : List ℝ :=
  let full := half ++ ((half.drop 1).dropLast.reverse.map fun z => (starRingEnd ℂ) z)
  (ifft_list full).map Complex.re

/-- `PhaseCoding.encode` (methods/phase_coding.py): split the cover into
segments of exactly `secret_len` samples (the import
`seg_split_len_n_exact` is `split_to_segments_of_len_n`), take the DFT
per segment, record the inter-segment phase differences (`np.diff` along
axis 0), overwrite the first segment's phases with
`(secret*2 - 1) * (-π/2)`, propagate `new[i] = new[i-1] + diff[i]`,
rebuild each segment as `ifft(|X| * exp(i*angle)).real`, flatten (the
alignment rest is dropped by the source), centre, normalise, cast.  An
empty payload returns the cover with side `l = -1`. -/
noncomputable def phase_encode (s : Signal ℝ) (secret : List ℝ) :
    Except StegoError (Signal ℝ × ℤ) :=
  if secret.length = 0 then .ok (⟨s.dtype, s.data⟩, -1)
  else
    match split_to_segments_of_len_n s.data secret.length with
    | none => .error .valueError
    | some (seg, _rest) =>
      let fft := seg.map fun r => fft_list (r.map Complex.ofReal)
      let angles := fft.map fun row => row.map Complex.arg
      let diffRows := List.zipWith (fun a b => List.zipWith (fun x y => y - x) a b)
        angles (angles.drop 1)
      let secret_angles := secret.map fun b => (b * 2 - 1) * (-Real.pi / 2)
      let new_angles := List.scanl (fun prev d => List.zipWith (fun p q => p + q) prev d)
        secret_angles diffRows
      let encoded := List.zipWith (fun row θs =>
          List.zipWith (fun z (θ : ℝ) => (Complex.abs z : ℂ) * Complex.exp (Complex.I * (θ : ℂ))) row θs)
        fft new_angles
      let flat := (encoded.map fun row => (ifft_list row).map Complex.re).flatten
      let centred := flat.map fun x => x - flat.sum / (flat.length : ℝ)
      let normed := if maxAbs centred ≠ 0 then centred.map fun x => x / maxAbs centred
        else centred
      .ok (⟨s.dtype, to_dtype normed .f64 s.dtype⟩, (secret.length : ℤ))

/-- `PhaseCoding.decode` (methods/phase_coding.py): take the first `l`
stego samples, compute their DFT, and emit bit `1` exactly where
`np.angle` is negative — one bit per bin of that `l`-point DFT.  When the
slice is empty (`l = 0`, or an empty stego) `np.fft.fft` raises
`ValueError: Invalid number of FFT data points`, modelled as `none`. -/
noncomputable def phase_decode (stego : List ℝ) (l : ℕ) : Option (List ℕ) :=
  let seg := stego.take l
  if seg.length = 0 then none
  else some ((fft_list (seg.map Complex.ofReal)).map fun z => if z.arg < 0 then 1 else 0)

/-- Smallest `k` with `n ≤ 2^k` (`ceil(log2 n)` for `n ≥ 1`). -/
def ceilLog2 (n : ℕ) : ℕ :=
  ((List.range (n + 1)).filter fun k => n ≤ 2 ^ k).headD 0

/-- Modelled from the spec: the spec's §4.5 description of phase-coding
decode — recompute the DFT of the first `N = 2*2^ceil(log2(2*l))` stego
samples and emit, for each bin `k ∈ [N/2 - l, N/2)`, bit `1` iff the
phase angle at bin `k` is negative.  Kept only to compare with the
source's `phase_decode` above. -/
noncomputable def phase_decode_spec (stego : List ℝ) (l : ℕ) : List ℕ :=
  let N := 2 * 2 ^ ceilLog2 (2 * l)
  let seg := (stego.take N).map Complex.ofReal
  (List.range l).map fun i => if (dft seg (N / 2 - l + i)).arg < 0 then 1 else 0

/-- `EchoSingle.decode` (methods/echo_single.py): split the stego into
`l` equal segments (`np.array_split` raises `ValueError` for `l = 0`,
modelled as `none`), compute the plain cepstrum
`irfft(log |rfft(segment)|)` of each, and emit bit `1` iff the cepstrum
at lag `d1` exceeds the one at lag `d0`; an out-of-range lag raises
`IndexError`, also modelled as `none`. -/
noncomputable def echo_single_decode (stego : List ℝ) (d0 d1 l : ℕ) : Option (List ℕ) :=
  match split_to_n_segments stego l with
  | none => none
  | some (split, _) =>
    let ceps := split.map fun seg =>
      irfft ((rfft seg).map fun z => ((Real.log (Complex.abs z) : ℝ) : ℂ))
    if ∀ c ∈ ceps, d0 < c.length ∧ d1 < c.length then
      some (ceps.map fun c => if c.getD d0 0 < c.getD d1 0 then 1 else 0)
    else none

/-- `ToneInsertion.encode` (methods/tone_insertion.py): centre and
normalise the cover, split it into segments of exactly 705 samples
(`ValueError` when that split is impossible, `SecretSizeTooLarge` when
there are fewer segments than payload bits), and add to segment `i` the
two reference tones `sin(2π f t)` on `linspace(0, 0.016, 705)` with
amplitudes `sqrt(r * P_i / P_tone)` where `r` is `0.0025` for the tone
matching bit `i` and `0.000025` for the opposing tone; concatenate,
append the rest, cast.  Empty payload returns the cover. -/
noncomputable def tone_insertion_encode (s : Signal ℝ) (secret : List ℕ) (f0 f1 : ℝ) :
    Except StegoError (Signal ℝ × ℕ) :=
  if secret.length = 0 then .ok (⟨s.dtype, s.data⟩, 0)
  else
    let source := normalize (center s.data)
    match split_to_segments_of_len_n source 705 with
    | none => .error .valueError
    | some (segments, rest) =>
      if secret.length > segments.length then .error .secretTooLarge
      else
        let segment_powers := segments.map fun seg => (seg.map fun x => |x| ^ 2).sum / 705
        let tone0 := (List.range 705).map fun i =>
          Real.sin (2 * Real.pi * f0 * (0.016 * i / 704))
        let tone1 := (List.range 705).map fun i =>
          Real.sin (2 * Real.pi * f1 * (0.016 * i / 704))
        let tone0_power := (tone0.map fun x => |x| ^ 2).sum / 705
        let tone1_power := (tone1.map fun x => |x| ^ 2).sum / 705
        let newSegments := (List.range segments.length).map fun i =>
          if i < secret.length then
            let b := secret.getD i 0
            let a0 := Real.sqrt ((if b = 0 then 0.0025 else 0.000025)
              * segment_powers.getD i 0 / tone0_power)
            let a1 := Real.sqrt ((if b = 0 then 0.000025 else 0.0025)
              * segment_powers.getD i 0 / tone1_power)
            (List.range 705).map fun j =>
              (segments.getD i []).getD j 0 + tone0.getD j 0 * a0 + tone1.getD j 0 * a1
          else segments.getD i []
        .ok (⟨s.dtype, to_dtype (newSegments.flatten ++ rest) .f64 s.dtype⟩, secret.length)

/-- Claim C3: for every echo variant (the kernel `f` is arbitrary, so
this covers all four), with `0 < d0 < d1`, no delay search and a
non-empty payload, `encode_wrapper` fails with `SecretTooLarge` iff
`1024 * payload_len > cover_len`; when the capacity suffices it returns
the kernel's stego, so an error never returns a partial stego. -/
theorem C3_echo_capacity {β : Type} (f : ℤ → ℤ → β) (n l : ℕ) (d0 d1 : ℤ)
    (pick : ℤ × ℤ) (h0 : 0 < d0) (h01 : d0 < d1) (_hl : l ≠ 0) :
    (encode_wrapper f l n (some d0) (some d1) "" pick = .error .secretTooLarge ↔
      1024 * l > n) ∧
    (¬ 1024 * l > n → encode_wrapper f l n (some d0) (some d1) "" pick = .ok (f d0 d1)) := by
  unfold encode_wrapper
  simp only [Option.getD_some]
  rw [if_neg (by omega), if_neg (by omega)]
  by_cases h : l * 1024 > n
  · rw [if_pos h]
    exact ⟨⟨fun _ => by omega, fun _ => rfl⟩, fun hc => absurd (by omega) hc⟩
  · rw [if_neg h]
    refine ⟨⟨fun hh => ?_, fun hh => by omega⟩, fun _ => ?_⟩ <;>
      simp_all

theorem C3_echo_capacity_witness :
    encode_wrapper (fun _ _ => (0 : ℕ)) 1 4 (some 1) (some 2) "" (0, 0) =
      .error .secretTooLarge :=
  (C3_echo_capacity (fun _ _ => (0 : ℕ)) 4 1 1 2 (0, 0) (by norm_num) (by norm_num)
    (by norm_num)).1.mpr (by norm_num)

/-- Claim C6, corrected: for a non-empty payload and a valid depth, LSB
encode fails with `SecretTooLarge` iff the zero-padded regrouped payload
size `ceil(len(b)/depth) * depth` — not the chunk count
`ceil(len(b)/depth)` — exceeds the cover length (for `depth = 1` the two
formulas agree).  When the capacity suffices it returns a stego signal
with side `l = len(b)` for every depth up to 63, but at `depth = 64`
(valid for 64-bit covers) the tail randomisation's
`np.random.randint(0, 2**64, …)` raises `ValueError` even though the
capacity check passed. -/
theorem C6_lsb_capacity (source : List ℤ) (secret : List ℕ) (bits depth : ℕ)
    (onlyNeeded : Bool) (tail : List ℕ) (h1 : secret ≠ []) (h2 : 1 ≤ depth)
    (h3 : depth ≤ bits) :
    (lsb_encode source secret bits depth onlyNeeded tail = .error .secretTooLarge ↔
      (secret.length + depth - 1) / depth * depth > source.length) ∧
    ((secret.length + depth - 1) / depth * depth ≤ source.length → depth ≤ 63 →
      ∃ stego, lsb_encode source secret bits depth onlyNeeded tail =
        .ok (stego, secret.length)) ∧
    ((secret.length + depth - 1) / depth * depth ≤ source.length → 64 ≤ depth →
      lsb_encode source secret bits depth onlyNeeded tail = .error .valueError) := by
  have hne : secret.length ≠ 0 := by simpa using h1
  have hmc : (secret.length + depth - 1) / depth * depth
      = depth * ((secret.length + depth - 1) / depth) := Nat.mul_comm _ _
  have hdm := Nat.div_add_mod (secret.length + depth - 1) depth
  have hml : (secret.length + depth - 1) % depth < depth := Nat.mod_lt _ (by omega)
  have hpadlen : (secret ++
      List.replicate ((secret.length + depth - 1) / depth * depth - secret.length) 0).length
      = (secret.length + depth - 1) / depth * depth := by
    simp only [List.length_append, List.length_replicate]
    omega
  have hd64 : (2 : ℕ) ^ 63 < 2 ^ depth ↔ 64 ≤ depth := by
    rw [Nat.pow_lt_pow_iff_right (by norm_num : 1 < 2)]
    omega
  unfold lsb_encode
  rw [if_neg hne, if_neg (by omega)]
  simp only [gt_iff_lt]
  rcases Nat.lt_or_ge 1 depth with hd | hd
  · rw [if_pos hd, hpadlen]
    by_cases hcap : source.length < (secret.length + depth - 1) / depth * depth
    · rw [if_pos hcap]
      exact ⟨⟨fun _ => hcap, fun _ => rfl⟩, fun hc _ => by omega, fun hc _ => by omega⟩
    · rw [if_neg hcap]
      by_cases h64 : (2 : ℕ) ^ 63 < 2 ^ depth
      · rw [if_pos h64]
        rw [hd64] at h64
        exact ⟨⟨fun hh => by simp at hh, fun hh => absurd hh hcap⟩,
          fun _ hle => by omega, fun _ _ => rfl⟩
      · rw [if_neg h64]
        rw [hd64, not_le] at h64
        exact ⟨⟨fun hh => by simp at hh, fun hh => absurd hh hcap⟩,
          fun _ _ => ⟨_, rfl⟩, fun _ hge => by omega⟩
  · have hd1 : depth = 1 := by omega
    subst hd1
    have heq : (secret.length + 1 - 1) / 1 * 1 = secret.length := by omega
    rw [heq]
    simp only [if_neg (Nat.lt_irrefl 1)]
    by_cases hcap : source.length < secret.length
    · rw [if_pos hcap]
      exact ⟨⟨fun _ => hcap, fun _ => rfl⟩, fun hc _ => by omega, fun hc _ => by omega⟩
    · rw [if_neg hcap, if_neg (by norm_num : ¬ (2 : ℕ) ^ 63 < 2 ^ 1)]
      exact ⟨⟨fun hh => by simp at hh, fun hh => absurd hh hcap⟩,
        fun _ _ => ⟨_, rfl⟩, fun _ hge => by omega⟩

theorem C6_lsb_capacity_witness :
    ∃ stego, lsb_encode [0] [1] 16 1 false [] = .ok (stego, 1) :=
  (C6_lsb_capacity [0] [1] 16 1 false [] (by simp) (by norm_num) (by norm_num)).2.1
    (by norm_num) (by norm_num)

/-- Claim C6, counterexample to the claim as stated: with `depth = 2`, a
3-bit payload and a 3-sample cover, the chunk count `ceil(3/2) = 2` does
not exceed the cover length 3, yet the source raises `SecretTooLarge`
(its check compares the padded 2-D payload size `2 * 2 = 4` against 3). -/
theorem C6_counterexample :
    lsb_encode [0, 0, 0] [1, 0, 1] 16 2 false [] = .error .secretTooLarge ∧
      (3 + 2 - 1) / 2 ≤ 3 :=
  ⟨rfl, by norm_num⟩

lemma array_split_eq_chunks (x : List β) (k n : ℕ) (h : x.length = k * n) :
    array_split x k = (List.range k).map fun i => (x.drop (i * n)).take n := by
  rcases Nat.eq_zero_or_pos k with hk | hk
  · subst hk; simp [array_split]
  · unfold array_split
    have hq : x.length / k = n := by rw [h, Nat.mul_div_cancel_left _ hk]
    have hr : x.length % k = 0 := by rw [h, Nat.mul_comm, Nat.mul_mod_left]
    rw [hq, hr]
    apply List.map_congr_left
    intro i _
    simp

lemma range_map_chunks_flatMap (f : γ → List β) (xs : List γ) (n : ℕ)
    (hf : ∀ x ∈ xs, (f x).length = n) :
    (List.range xs.length).map (fun i => ((xs.flatMap f).drop (i * n)).take n)
      = xs.map f := by
  induction xs with
  | nil => simp
  | cons x tl ih =>
    rw [List.length_cons, List.range_succ_eq_map, List.map_cons, List.map_map,
      List.map_cons]
    congr 1
    · simp only [Nat.zero_mul, List.drop_zero, List.flatMap_cons]
      exact List.take_left' (hf x (List.mem_cons_self x tl))
    · rw [← ih fun y hy => hf y (List.mem_cons_of_mem x hy)]
      apply List.map_congr_left
      intro i _
      simp only [Function.comp_apply, List.flatMap_cons]
      have hstep : (i + 1) * n = (f x).length + i * n := by
        rw [hf x (List.mem_cons_self x tl)]; ring
      rw [hstep, List.drop_append]

lemma flatten_map_singleton (l : List ℕ) : (l.map fun v => [v]).flatten = l := by
  induction l with
  | nil => rfl
  | cons a tl ih => simp [ih]

lemma lsb_roundtrip_map (src : List ℤ) (sec : List ℕ) (hb : ∀ b ∈ sec, b ≤ 1) :
    (List.zipWith (fun s c => s - s % 2 + c) src (sec.map (Nat.cast : ℕ → ℤ))).map
      (fun s => (s % 2).toNat % 256) = sec.take src.length := by
  induction sec generalizing src with
  | nil => simp
  | cons b tl ih =>
    cases src with
    | nil => simp
    | cons s stl =>
      have hb0 : b ≤ 1 := hb b (List.mem_cons_self b tl)
      simp only [List.map_cons, List.zipWith_cons_cons, List.length_cons,
        List.take_succ_cons, List.map_cons]
      congr 1
      · have h2 : (s - s % 2 + (b : ℤ)) % 2 = (b : ℤ) := by omega
        rw [h2]
        omega
      · exact ih stl fun y hy => hb y (List.mem_cons_of_mem b hy)

/-- Claim C1: for the LSB method at depth 1 — integer cover, 0/1 payload
of length at most the cover length — encoding returns side-param
`l = len(b)` and decoding the stego with that `l` returns exactly the
payload, whatever values the unseeded PRNG put into the cover tail. -/
theorem C1_lsb_roundtrip (source : List ℤ) (secret : List ℕ) (tail : List ℕ)
    (bits : ℕ) (hbits : 1 ≤ bits) (hb : ∀ b ∈ secret, b ≤ 1)
    (hlen : secret.length ≤ source.length) :
    ∃ stego, lsb_encode source secret bits 1 false tail = .ok (stego, secret.length) ∧
      lsb_decode stego bits 1 (some secret.length) = .ok secret := by
  rcases Nat.eq_zero_or_pos secret.length with hz | hpos
  · have hsec : secret = [] := List.length_eq_zero.mp hz
    subst hsec
    refine ⟨source, by simp [lsb_encode], ?_⟩
    unfold lsb_decode
    rw [if_neg (by omega)]
    simp [split_to_segments_of_approx_len_n]
  · -- encode takes the depth-1 path
    have hne : secret.length ≠ 0 := by omega
    unfold lsb_encode
    rw [if_neg hne, if_neg (by omega)]
    simp only [gt_iff_lt]
    simp only [if_neg (Nat.lt_irrefl 1)]
    rw [if_neg (by omega : ¬ source.length < secret.length),
      if_neg (by norm_num : ¬ (2 : ℕ) ^ 63 < 2 ^ 1)]
    refine ⟨_, rfl, ?_⟩
    -- decode
    unfold lsb_decode
    rw [if_neg (by omega)]
    simp only [Option.getD_some, Bool.false_eq_true, if_false, pow_one]
    -- the first l stego samples carry exactly the payload bits
    have htake : (List.zipWith (fun s c => s - s % 2 + c) source
        ((secret ++ tail).map (Nat.cast : ℕ → ℤ))).take secret.length
        = List.zipWith (fun s c => s - s % 2 + c) (source.take secret.length)
          (secret.map (Nat.cast : ℕ → ℤ)) := by
      rw [List.take_zipWith, List.map_append,
        List.take_left' (by rw [List.length_map])]
    rw [htake, lsb_roundtrip_map _ _ hb, List.length_take, min_eq_left hlen,
      List.take_length]
    have hf8 : ∀ v ∈ secret, ((List.range 8).map fun t => v / 2 ^ t % 2).length = 8 := by
      intro v _; simp
    have hflatlen : (secret.flatMap fun v => (List.range 8).map fun t => v / 2 ^ t % 2).length
        = secret.length * 8 := by
      rw [List.length_flatMap]
      have hmapc : List.map (List.length ∘ fun v => List.map (fun t => v / 2 ^ t % 2)
          (List.range 8)) secret = List.map (fun _ => 8) secret :=
        List.map_congr_left (by intro v _; simp)
      rw [hmapc, List.map_const']
      simp [Nat.mul_comm]
    have hpad0 : ((secret.flatMap fun v => (List.range 8).map fun t => v / 2 ^ t % 2).length
        + (1 + 7) / 8 * 8 - 1) / ((1 + 7) / 8 * 8) * ((1 + 7) / 8 * 8)
        - (secret.flatMap fun v => (List.range 8).map fun t => v / 2 ^ t % 2).length = 0 := by
      rw [hflatlen]; omega
    rw [hpad0]
    simp only [List.replicate_zero, List.append_nil]
    have hgroups : split_to_segments_of_approx_len_n
        (secret.flatMap fun v => (List.range 8).map fun t => v / 2 ^ t % 2) ((1 + 7) / 8 * 8)
        = secret.map fun v => (List.range 8).map fun t => v / 2 ^ t % 2 := by
      unfold split_to_segments_of_approx_len_n
      rw [if_neg (by rw [hflatlen]; omega)]
      have hcount : ((secret.flatMap fun v => (List.range 8).map fun t => v / 2 ^ t % 2).length
          + (1 + 7) / 8 * 8 - 1) / ((1 + 7) / 8 * 8) = secret.length := by
        rw [hflatlen]; omega
      rw [hcount, array_split_eq_chunks _ _ 8 (by rw [hflatlen])]
      exact range_map_chunks_flatMap _ _ 8 hf8
    rw [hgroups]
    have htake1 : (secret.map fun v => (List.range 8).map fun t => v / 2 ^ t % 2).map
        (fun g => g.take 1) = secret.map fun v => [v] := by
      rw [List.map_map]
      apply List.map_congr_left
      intro v hv
      have hv1 : v ≤ 1 := hb v hv
      have hlist : (List.range 8).map (fun t => v / 2 ^ t % 2)
          = [v % 2, 0, 0, 0, 0, 0, 0, 0] := by
        rw [show List.range 8 = [0, 1, 2, 3, 4, 5, 6, 7] from rfl]
        simp only [List.map_cons, List.map_nil]
        norm_num
        omega
      simp only [Function.comp_apply, hlist, List.take_succ_cons, List.take_zero]
      congr 1
      omega
    rw [htake1, flatten_map_singleton, List.take_length]

omit [LinearOrderedField α] [FloorRing α] in
lemma zipWith_replicate_left_map (f : List α → γ → List β) (r : List α) (l : List γ) :
    List.zipWith f (List.replicate l.length r) l = l.map (f r) := by
  induction l with
  | nil => rfl
  | cons x tl ih => simp [List.replicate_succ, ih]

lemma length_flatMap_replicate (l : List γ) (k : ℕ) :
    (l.flatMap fun x => List.replicate k x).length = l.length * k := by
  induction l with
  | nil => simp
  | cons x tl ih => simp [List.flatMap_cons, ih]; ring

lemma split_replicate_ones (L m : ℕ) (hm : m ≠ 0) :
    split_to_n_segments (List.replicate L (1 : α)) m
      = some (List.replicate m (List.replicate (L / m) (1 : α)),
          List.replicate (L - L / m * m) (1 : α)) := by
  unfold split_to_n_segments
  rw [if_neg hm]
  have hlen : (List.replicate L (1 : α)).length = L := List.length_replicate _ _
  rw [hlen]
  have hle : L / m * m ≤ L := Nat.div_mul_le_self _ _
  have htk : (List.replicate L (1 : α)).take (L / m * m)
      = List.replicate (L / m * m) (1 : α) := by
    rw [List.take_replicate, min_eq_left hle]
  have hdr : (List.replicate L (1 : α)).drop (L / m * m)
      = List.replicate (L - L / m * m) (1 : α) := List.drop_replicate _ _ _
  rw [htk, hdr,
    array_split_eq_chunks _ m (L / m) (by rw [List.length_replicate, Nat.mul_comm])]
  simp only [Option.some.injEq, Prod.mk.injEq]
  refine ⟨?_, trivial⟩
  rw [List.eq_replicate_iff]
  refine ⟨by simp, ?_⟩
  intro piece hpiece
  rw [List.mem_map] at hpiece
  obtain ⟨i, hi, hpe⟩ := hpiece
  rw [List.mem_range] at hi
  rw [← hpe, List.drop_replicate, List.take_replicate]
  congr 1
  have : L / m * m - i * (L / m) ≥ L / m := by
    have h1 : (i + 1) * (L / m) ≤ m * (L / m) :=
      Nat.mul_le_mul_right _ (by omega)
    have h2 : (i + 1) * (L / m) = i * (L / m) + L / m := by ring
    have h3 : L / m * m = m * (L / m) := Nat.mul_comm _ _
    omega
  omega

/-- Claim C4, corrected: for `1 ≤ len(b) ≤ L`, `spread_bits` returns a
signal of length exactly `L` made of `len(b)` adjacent constant runs of
length `L / len(b)` holding `b[i]`, with the trailing alignment remainder
of `L mod len(b)` samples appended as ONES (the unscaled rest of the
all-ones carrier), not zeros. -/
theorem C4_spread_bits (b : List α) (L : ℕ) (hb : b ≠ []) (_hbl : b.length ≤ L) :
    spread_bits b L = some ((b.flatMap fun x => List.replicate (L / b.length) x)
      ++ List.replicate (L % b.length) (1 : α)) ∧
    ∀ s, spread_bits b L = some s → s.length = L := by
  have hm : b.length ≠ 0 := by simpa using hb
  have hmod : L - L / b.length * b.length = L % b.length := by
    have h1 := Nat.div_add_mod L b.length
    have h2 : L / b.length * b.length = b.length * (L / b.length) := Nat.mul_comm _ _
    omega
  have hmain : spread_bits b L = some ((b.flatMap fun x => List.replicate (L / b.length) x)
      ++ List.replicate (L % b.length) (1 : α)) := by
    unfold spread_bits
    rw [split_replicate_ones L b.length hm, hmod]
    dsimp only
    congr 1
    congr 1
    rw [zipWith_replicate_left_map]
    have hpt : b.map (fun x => (List.replicate (L / b.length) (1 : α)).map fun y => y * x)
        = b.map fun x => List.replicate (L / b.length) x := by
      apply List.map_congr_left
      intro x _
      rw [List.map_replicate, one_mul]
    rw [hpt, ← List.flatMap_def]
  refine ⟨hmain, ?_⟩
  intro s hs
  rw [hmain, Option.some_inj] at hs
  subst hs
  rw [List.length_append, length_flatMap_replicate, List.length_replicate]
  have h1 := Nat.div_add_mod L b.length
  have h2 : b.length * (L / b.length) = L / b.length * b.length := Nat.mul_comm _ _
  omega

theorem C4_spread_bits_witness :
    spread_bits ([1, 0] : List ℚ) 3 = some [1, 0, 1] := by
  have h := (C4_spread_bits ([1, 0] : List ℚ) 3 (by simp) (by simp)).1
  simpa [List.flatMap_cons] using h

/-- Claim C4, counterexample to the claim as stated: the trailing
alignment sample of `spread_bits([1,0], 3)` is a one, not a zero — the
rest that `split_to_n_segments` slices off the all-ones carrier is
appended unscaled. -/
theorem C4_counterexample :
    spread_bits ([1, 0] : List ℚ) 3 ≠ some [1, 0, 0] := by
  have h : spread_bits ([1, 0] : List ℚ) 3
      = some ((([1, 0] : List ℚ).flatMap fun x => List.replicate (3 / 2) x)
        ++ List.replicate (3 % 2) (1 : ℚ)) := by
    unfold spread_bits
    rw [split_replicate_ones 3 ([(1 : ℚ), 0].length) (by simp)]
    dsimp only
    norm_num [zipWith_replicate_left_map, List.flatMap_cons, List.replicate_succ]
  rw [h]
  norm_num [List.flatMap_cons]

/-- Concrete S1 scenario: a 32-sample int16 cover, the 16-bit payload of
the string "42", depth 1. -/
theorem C1_lsb_roundtrip_witness :
    ∃ stego,
      lsb_encode [0, 1, 2, 3, 4, 5, 6, 7, 8, 9, 10, 11, 12, 13, 14, 15, 16, 17, 18, 19,
          20, 21, 22, 23, 24, 25, 26, 27, 28, 29, 30, -31]
        [0, 0, 1, 1, 0, 1, 0, 0, 0, 0, 1, 1, 0, 0, 1, 0] 16 1 false
        [1, 0, 1, 0, 1, 0, 1, 0, 1, 0, 1, 0, 1, 0, 1, 0] = .ok (stego, 16) ∧
      lsb_decode stego 16 1 (some 16) =
        .ok [0, 0, 1, 1, 0, 1, 0, 0, 0, 0, 1, 1, 0, 0, 1, 0] :=
  C1_lsb_roundtrip _ _ _ 16 (by norm_num) (by decide) (by norm_num)

lemma Dtype.maxvalNat_of_isFloat (d : Dtype) (h : d.isFloat = true) : d.maxvalNat = 1 := by
  cases d <;> simp_all [Dtype.isFloat, Dtype.maxvalNat]

/-- Claim C7, corrected: `to_dtype(x, U)` equals
`(x / maxval(T)) * maxval(U)` truncated toward zero and wrapped into the
target dtype's representable range (the behaviour of `astype` on an
integer target dtype), not rounded; for a float target no truncation
happens, and when both dtypes are float the scaling maxima are `1`, so
the conversion is 1-to-1. -/
theorem C7_to_dtype (x : List α) (T U : Dtype) :
    (U.isFloat = true →
      to_dtype x T U = x.map fun v => v / (T.maxvalNat : α) * (U.maxvalNat : α)) ∧
    (U.isFloat = false →
      to_dtype x T U = x.map fun v =>
        ((U.wrapInt (truncToInt (v / (T.maxvalNat : α) * (U.maxvalNat : α))) : ℤ) : α)) ∧
    (T.isFloat = true → U.isFloat = true → to_dtype x T U = x) := by
  refine ⟨fun hU => ?_, fun hU => ?_, fun hT hU => ?_⟩
  · unfold to_dtype
    rw [if_pos hU, List.map_map]
    rfl
  · unfold to_dtype
    rw [if_neg (by rw [hU]; exact Bool.false_ne_true), List.map_map, List.map_map]
    rfl
  · unfold to_dtype
    rw [if_pos hU, List.map_map,
      Dtype.maxvalNat_of_isFloat T hT, Dtype.maxvalNat_of_isFloat U hU]
    simp [Function.comp_def]

theorem C7_to_dtype_witness : to_dtype ([5] : List ℚ) .f64 .f64 = [5] :=
  (C7_to_dtype [5] .f64 .f64).2.2 rfl rfl

/-- Claim C7, counterexample to the claim as stated: converting the int16
sample 1000 to u8 gives `1000 / 32767 * 255 = 7.78…`, which `astype`
truncates to 7 (in range, so the wrap is the identity) while the spec's
rounding would give 8. -/
theorem C7_counterexample :
    to_dtype ([1000] : List ℚ) .i16 .u8 ≠ to_dtype_round ([1000] : List ℚ) .i16 .u8 := by
  have hq : (1000 : ℚ) / ((32767 : ℕ) : ℚ) * ((255 : ℕ) : ℚ) = 255000 / 32767 := by
    push_cast
    ring
  have h1 : to_dtype ([1000] : List ℚ) .i16 .u8 = [(7 : ℚ)] := by
    unfold to_dtype truncToInt Dtype.wrapInt
    rw [show Dtype.isFloat .u8 = false from rfl]
    simp only [Bool.false_eq_true, if_false, List.map_map, List.map_cons, List.map_nil,
      Function.comp_apply, Dtype.maxvalNat, Dtype.isSigned, Dtype.bits, hq]
    rw [if_pos (by norm_num)]
    norm_num
  have h2 : to_dtype_round ([1000] : List ℚ) .i16 .u8 = [(8 : ℚ)] := by
    unfold to_dtype_round
    rw [show Dtype.isFloat .u8 = false from rfl]
    simp only [Bool.false_eq_true, if_false, List.map_map, List.map_cons, List.map_nil,
      Function.comp_apply, Dtype.maxvalNat, hq]
    rw [round_eq]
    norm_num
  rw [h1, h2]
  norm_num

/-- Claim C8 (code bug evidence): every echo decoder first calls
`split_to_n_segments` = `np.array_split(stego, l)`, which raises
`ValueError` for `l = 0`; so `EchoSingle.decode` (and the other echo
variants) fail instead of returning the empty bit buffer the method
contract requires — unlike `DSSS.decode` and `SilenceInterval.decode`,
which guard `l < 1` explicitly. -/
theorem C8_echo_decode_zero_fails (stego : List ℝ) (d0 d1 : ℕ) :
    echo_single_decode stego d0 d1 0 = none := rfl

/-- Claim C9, amended: encode is a pure function of cover, payload and
opts wherever the unseeded global NumPy PRNG is not consulted: LSB with
`only_needed = true` discards the random draw, and the echo wrapper with
`delay_search = ''` never reads the search outcome (which is where the
basin-hopping search's global-PRNG dependence enters the model).  DSSS
is deterministic because its PN generator is seeded from the password.
The PRNG does enter LSB's default random-tail mode and the
`basinhopping` delay search, so those modes are not deterministic in
(cover, payload, opts) — see the counterexample. -/
theorem C9_deterministic_modulo_prng :
    (∀ (source : List ℤ) (secret : List ℕ) (bits depth : ℕ) (tail1 tail2 : List ℕ),
      lsb_encode source secret bits depth true tail1
        = lsb_encode source secret bits depth true tail2) ∧
    (∀ {β : Type} (f : ℤ → ℤ → β) (sl nl : ℕ) (d0? d1? : Option ℤ) (p1 p2 : ℤ × ℤ),
      encode_wrapper f sl nl d0? d1? "" p1 = encode_wrapper f sl nl d0? d1? "" p2) :=
  ⟨fun _ _ _ _ _ _ => rfl, fun _ _ _ _ _ _ _ => rfl⟩

/-- Claim C9, counterexample to the claim as stated: two LSB encode calls
with identical cover `[0,0]`, payload `[1]` and opts (`depth = 1`,
`only_needed = false`) but different ambient PRNG draws return different
stego signals, because the cover tail is filled from the unseeded global
NumPy PRNG, which is not part of the options; likewise two echo encode
calls with identical inputs and `delay_search = 'basinhopping'` return
different stego when the PRNG-driven search settles on different delay
pairs (the search outcome `searchPick` models the global-PRNG-dependent
basin-hopping walk). -/
theorem C9_counterexample :
    lsb_encode [0, 0] [1] 16 1 false [0] = .ok ([1, 0], 1) ∧
    lsb_encode [0, 0] [1] 16 1 false [1] = .ok ([1, 1], 1) ∧
    ([1, 0] : List ℤ) ≠ [1, 1] ∧
    encode_wrapper Prod.mk 1 2048 (some 1) (some 2) "basinhopping" (1, 2) = .ok (1, 2) ∧
    encode_wrapper Prod.mk 1 2048 (some 1) (some 2) "basinhopping" (3, 4) = .ok (3, 4) ∧
    ((1, 2) : ℤ × ℤ) ≠ (3, 4) :=
  ⟨rfl, rfl, by decide, rfl, rfl, by decide⟩

/-- Claim C5, corrected: for `l ≥ 1` with `l` at most the stego length,
the source's phase-coding decode computes the DFT of the first `l` stego
samples (not of the first `N = 2*2^ceil(log2(2*l))` samples) and emits
one bit per bin `k ∈ [0, l)` of that `l`-point DFT — bit `1` exactly
where the phase angle (negative iff the imaginary part is negative,
since `np.angle` ranges over `(-π, π]`) is negative — yielding exactly
`l` bits.  (`l = 0` is excluded: `np.fft.fft` of the empty slice raises
`ValueError`.) -/
theorem C5_phase_decode (stego : List ℝ) (l : ℕ) (hl : 1 ≤ l) (h : l ≤ stego.length) :
    ∃ bits, phase_decode stego l = some bits ∧ bits.length = l ∧
      bits = (List.range l).map fun k =>
        if (dft ((stego.take l).map Complex.ofReal) k).im < 0 then 1 else 0 := by
  have hseg : (stego.take l).length = l := by
    rw [List.length_take, min_eq_left h]
  have hlen : ((stego.take l).map Complex.ofReal).length = l := by
    rw [List.length_map, hseg]
  unfold phase_decode
  rw [if_neg (by rw [hseg]; omega)]
  refine ⟨_, rfl, ?_, ?_⟩
  · unfold fft_list
    rw [List.length_map, List.length_map, List.length_range, hlen]
  · unfold fft_list
    rw [List.map_map, hlen]
    apply List.map_congr_left
    intro k _
    simp only [Function.comp_apply, Complex.arg_neg_iff]

theorem C5_phase_decode_witness :
    ∃ bits, phase_decode [1, 1, 0, 0] 1 = some bits ∧ bits.length = 1 ∧
      bits = (List.range 1).map fun k =>
        if (dft ((([1, 1, 0, 0] : List ℝ).take 1).map Complex.ofReal) k).im < 0
        then 1 else 0 :=
  C5_phase_decode [1, 1, 0, 0] 1 (by norm_num) (by norm_num)

/-- Claim C5, counterexample to the claim as stated: on the stego
`[1, 1, 0, 0]` with `l = 1` the source decodes `[0]` (the 1-point DFT of
`[1]` is `1`, whose angle is `0`), while the spec's procedure — 4-point
DFT, bin `k = 1`, value `1 - i` with negative angle — yields `[1]`. -/
theorem C5_counterexample :
    phase_decode [1, 1, 0, 0] 1 = some [0] ∧ phase_decode_spec [1, 1, 0, 0] 1 = [1] ∧
      ([0] : List ℕ) ≠ [1] := by
  refine ⟨?_, ?_, by decide⟩
  · unfold phase_decode fft_list dft
    norm_num [Complex.exp_zero, Complex.arg_one, Finset.sum_range_succ]
  · unfold phase_decode_spec
    rw [show ceilLog2 (2 * 1) = 1 from rfl]
    norm_num [dft, Finset.sum_range_succ]
    rw [show List.range 1 = [0] from rfl]
    simp only [List.map_cons, List.map_nil, Nat.cast_zero]
    have hang : -(2 * (Real.pi : ℂ) * Complex.I * (1 + 0)) / 4
        = ((-(Real.pi / 2) : ℝ) : ℂ) * Complex.I := by
      push_cast
      ring
    rw [hang, Complex.exp_ofReal_mul_I_im]
    norm_num [Real.pi_pos]

/-- `EchoSingle.encode` = `encode_wrapper` over the single kernel. -/
def echo_single_encode (s : Signal α) (secret : List α) (d0? d1? : Option ℤ)
    (delay_search : String) (pick : ℤ × ℤ) (alpha decay_rate : α) :
    Except StegoError (Signal α × (ℤ × ℤ × ℤ)) :=
  encode_wrapper (fun a b => echo_single_encode_core s secret a b alpha decay_rate)
    secret.length s.data.length d0? d1? delay_search pick

/-- `EchoBipolar.encode` = `encode_wrapper` over the bipolar kernel. -/
def echo_bipolar_encode (s : Signal α) (secret : List α) (d0? d1? : Option ℤ)
    (delay_search : String) (pick : ℤ × ℤ) (alpha decay_rate : α) :
    Except StegoError (Signal α × (ℤ × ℤ × ℤ)) :=
  encode_wrapper (fun a b => echo_bipolar_encode_core s secret a b alpha decay_rate)
    secret.length s.data.length d0? d1? delay_search pick

/-- `EchoBF.encode` = `encode_wrapper` over the backward-forward kernel. -/
def echo_bf_encode (s : Signal α) (secret : List α) (d0? d1? : Option ℤ)
    (delay_search : String) (pick : ℤ × ℤ) (alpha decay_rate : α) :
    Except StegoError (Signal α × (ℤ × ℤ × ℤ)) :=
  encode_wrapper (fun a b => echo_bf_encode_core s secret a b alpha decay_rate)
    secret.length s.data.length d0? d1? delay_search pick

/-- `EchoBipolarBF.encode` = `encode_wrapper` over the bipolar
backward-forward kernel. -/
def echo_bipolar_bf_encode (s : Signal α) (secret : List α) (d0? d1? : Option ℤ)
    (delay_search : String) (pick : ℤ × ℤ) (alpha decay_rate : α) :
    Except StegoError (Signal α × (ℤ × ℤ × ℤ)) :=
  encode_wrapper (fun a b => echo_bipolar_bf_encode_core s secret a b alpha decay_rate)
    secret.length s.data.length d0? d1? delay_search pick

/-- `SilenceInterval.encode` at the signal level: the output is a
concatenation of cover segments, so it carries the cover's dtype (the
source applies no cast here). -/
def silence_encode_sig (s : Signal α) (secret : List ℕ) (msl : ℕ) :
    Except StegoError (Signal α × ℕ) :=
  match silence_encode s.data secret msl with
  | .error e => .error e
  | .ok (st, l) => .ok (⟨s.dtype, st⟩, l)

lemma encode_wrapper_ok {β : Type} (f : ℤ → ℤ → β) {sl nl : ℕ} {d0? d1? : Option ℤ}
    {ds : String} {pick : ℤ × ℤ} {out : β}
    (h : encode_wrapper f sl nl d0? d1? ds pick = .ok out) : ∃ a b, out = f a b := by
  simp only [encode_wrapper] at h
  split at h
  · simp at h
  · split at h
    · simp at h
    · split at h
      · simp at h
      · split at h
        · simp only [Except.ok.injEq] at h
          exact ⟨_, _, h.symm⟩
        · split at h
          · simp only [Except.ok.injEq] at h
            exact ⟨_, _, h.symm⟩
          · simp only [Except.ok.injEq] at h
            exact ⟨_, _, h.symm⟩

lemma echo_single_encode_core_dtype (s : Signal α) (secret : List α) (d0 d1 : ℤ)
    (alpha dr : α) : (echo_single_encode_core s secret d0 d1 alpha dr).1.dtype = s.dtype := by
  unfold echo_single_encode_core
  split <;> rfl

lemma echo_bipolar_encode_core_dtype (s : Signal α) (secret : List α) (d0 d1 : ℤ)
    (alpha dr : α) : (echo_bipolar_encode_core s secret d0 d1 alpha dr).1.dtype = s.dtype := by
  unfold echo_bipolar_encode_core
  split <;> rfl

lemma echo_bf_encode_core_dtype (s : Signal α) (secret : List α) (d0 d1 : ℤ)
    (alpha dr : α) : (echo_bf_encode_core s secret d0 d1 alpha dr).1.dtype = s.dtype := by
  unfold echo_bf_encode_core
  split <;> rfl

lemma echo_bipolar_bf_encode_core_dtype (s : Signal α) (secret : List α) (d0 d1 : ℤ)
    (alpha dr : α) :
    (echo_bipolar_bf_encode_core s secret d0 d1 alpha dr).1.dtype = s.dtype := by
  unfold echo_bipolar_bf_encode_core
  split <;> rfl

/-- Claim C2, corrected: the four echo variants, DSSS, phase coding and
tone insertion return the cover's dtype via the final dtype-preserving
`to_dtype` cast (internal computation in f64), and silence-interval
coding does because its output is a concatenation of cover segments.
LSB preserves the dtype on float covers (`np.frombuffer` back to the
source dtype) and on signed integer covers with `depth <` the bit width,
but its integer path has NO final cast: the stego keeps the dtype that
NumPy's value-based promotion of the negative mask scalar produced
(`lsb_mask_promote`) — `i16` for every `u8` cover, the next wider signed
dtype at `depth =` bit width. -/
theorem C2_dtype_preservation :
    (∀ (s : Signal ℤ) (secret : List ℕ) (depth : ℕ) (onlyNeeded : Bool) (tail : List ℕ)
      (out : Signal ℤ × ℕ), lsb_encode_sig s secret depth onlyNeeded tail = .ok out →
      out.1.dtype = if secret.length = 0 ∨ s.dtype.isFloat = true then s.dtype
        else lsb_mask_promote s.dtype depth) ∧
    (∀ (s : Signal ℚ) (secret : List ℚ) (d0? d1? : Option ℤ) (ds : String)
      (pick : ℤ × ℤ) (alpha dr : ℚ) (out : Signal ℚ × (ℤ × ℤ × ℤ)),
      echo_single_encode s secret d0? d1? ds pick alpha dr = .ok out →
      out.1.dtype = s.dtype) ∧
    (∀ (s : Signal ℚ) (secret : List ℚ) (d0? d1? : Option ℤ) (ds : String)
      (pick : ℤ × ℤ) (alpha dr : ℚ) (out : Signal ℚ × (ℤ × ℤ × ℤ)),
      echo_bipolar_encode s secret d0? d1? ds pick alpha dr = .ok out →
      out.1.dtype = s.dtype) ∧
    (∀ (s : Signal ℚ) (secret : List ℚ) (d0? d1? : Option ℤ) (ds : String)
      (pick : ℤ × ℤ) (alpha dr : ℚ) (out : Signal ℚ × (ℤ × ℤ × ℤ)),
      echo_bf_encode s secret d0? d1? ds pick alpha dr = .ok out →
      out.1.dtype = s.dtype) ∧
    (∀ (s : Signal ℚ) (secret : List ℚ) (d0? d1? : Option ℤ) (ds : String)
      (pick : ℤ × ℤ) (alpha dr : ℚ) (out : Signal ℚ × (ℤ × ℤ × ℤ)),
      echo_bipolar_bf_encode s secret d0? d1? ds pick alpha dr = .ok out →
      out.1.dtype = s.dtype) ∧
    (∀ (s : Signal ℚ) (secret pn : List ℚ) (alpha : ℚ) (out : Signal ℚ × ℕ),
      dsss_encode s secret pn alpha = .ok out → out.1.dtype = s.dtype) ∧
    (∀ (s : Signal ℝ) (secret : List ℝ) (out : Signal ℝ × ℤ),
      phase_encode s secret = .ok out → out.1.dtype = s.dtype) ∧
    (∀ (s : Signal ℚ) (secret : List ℕ) (msl : ℕ) (out : Signal ℚ × ℕ),
      silence_encode_sig s secret msl = .ok out → out.1.dtype = s.dtype) ∧
    (∀ (s : Signal ℝ) (secret : List ℕ) (f0 f1 : ℝ) (out : Signal ℝ × ℕ),
      tone_insertion_encode s secret f0 f1 = .ok out → out.1.dtype = s.dtype) := by
  refine ⟨?_, ?_, ?_, ?_, ?_, ?_, ?_, ?_, ?_⟩
  · intro s secret depth onlyNeeded tail out h
    unfold lsb_encode_sig at h
    by_cases hsec : secret.length = 0
    · rw [if_pos hsec] at h
      simp only [Except.ok.injEq] at h
      rw [← h, if_pos (Or.inl hsec)]
    · rw [if_neg hsec] at h
      rcases hm : lsb_encode s.data secret (dtype_conv s.dtype).bits depth onlyNeeded tail
        with e | p
      · rw [hm] at h
        simp at h
      · rw [hm] at h
        obtain ⟨st, l⟩ := p
        dsimp only at h
        by_cases hf : s.dtype.isFloat = true
        · rw [if_pos hf] at h
          simp only [Except.ok.injEq] at h
          rw [← h, if_pos (Or.inr hf)]
        · rw [if_neg hf] at h
          simp only [Except.ok.injEq] at h
          rw [← h, if_neg (not_or.mpr ⟨hsec, hf⟩)]
  · intro s secret d0? d1? ds pick alpha dr out h
    obtain ⟨a, b, rfl⟩ := encode_wrapper_ok _ h
    exact echo_single_encode_core_dtype s secret a b alpha dr
  · intro s secret d0? d1? ds pick alpha dr out h
    obtain ⟨a, b, rfl⟩ := encode_wrapper_ok _ h
    exact echo_bipolar_encode_core_dtype s secret a b alpha dr
  · intro s secret d0? d1? ds pick alpha dr out h
    obtain ⟨a, b, rfl⟩ := encode_wrapper_ok _ h
    exact echo_bf_encode_core_dtype s secret a b alpha dr
  · intro s secret d0? d1? ds pick alpha dr out h
    obtain ⟨a, b, rfl⟩ := encode_wrapper_ok _ h
    exact echo_bipolar_bf_encode_core_dtype s secret a b alpha dr
  · intro s secret pn alpha out h
    unfold dsss_encode at h
    split_ifs at h
    all_goals simp only [Except.ok.injEq] at h
    all_goals rw [← h]
  · intro s secret out h
    unfold phase_encode at h
    split_ifs at h
    · simp only [Except.ok.injEq] at h
      rw [← h]
    · rcases hm : split_to_segments_of_len_n s.data secret.length with _ | p
      · rw [hm] at h
        simp at h
      · rw [hm] at h
        obtain ⟨seg, rest⟩ := p
        simp only [Except.ok.injEq] at h
        rw [← h]
  · intro s secret msl out h
    unfold silence_encode_sig at h
    rcases hm : silence_encode s.data secret msl with e | p
    · rw [hm] at h
      simp at h
    · rw [hm] at h
      obtain ⟨st, l⟩ := p
      simp only [Except.ok.injEq] at h
      rw [← h]
  · intro s secret f0 f1 out h
    unfold tone_insertion_encode at h
    split_ifs at h
    · simp only [Except.ok.injEq] at h
      rw [← h]
    · dsimp only at h
      rcases hm : split_to_segments_of_len_n (normalize (center s.data)) 705 with _ | p
      · rw [hm] at h
        simp at h
      · rw [hm] at h
        obtain ⟨segments, rest⟩ := p
        simp only at h
        split_ifs at h
        simp only [Except.ok.injEq] at h
        rw [← h]

theorem C2_dtype_preservation_witness :
    ((⟨Dtype.i16, [1]⟩ : Signal ℤ), (1 : ℕ)).1.dtype = Dtype.i16 :=
  C2_dtype_preservation.1 ⟨Dtype.i16, [0]⟩ [1] 1 false [1] (⟨Dtype.i16, [1]⟩, 1) rfl

/-- Claim C2, counterexample to the claim as stated: LSB encode on a u8
cover succeeds but returns an int16 stego — the integer path has no
final cast, and `np.bitwise_and(source, np.bitwise_not(2**depth - 1))`
promotes the unsigned cover against the negative mask scalar. -/
theorem C2_counterexample :
    lsb_encode_sig ⟨Dtype.u8, [0]⟩ [1] 1 false [] = .ok (⟨Dtype.i16, [1]⟩, 1) ∧
      Dtype.i16 ≠ Dtype.u8 :=
  ⟨rfl, by decide⟩

lemma silence_step_shape (bytes : List ℕ) (msl : ℕ) (acc : List (List α) × ℕ)
    (seg : List α) :
    ∃ r i, silence_step bytes msl acc seg = (acc.1 ++ [r], i) ∧
      ∃ k, r = List.take k seg := by
  unfold silence_step
  split
  · exact ⟨seg, acc.2, rfl, seg.length, (List.take_length seg).symm⟩
  · dsimp only
    split
    · exact ⟨seg, acc.2, rfl, seg.length, (List.take_length seg).symm⟩
    · exact ⟨_, acc.2 + 1, rfl, _, rfl⟩

lemma silence_walk_prefixes (bytes : List ℕ) (msl : ℕ) (ss : List (List α)) :
    ∀ acc : List (List α) × ℕ,
    ∃ rs, (ss.foldl (silence_step bytes msl) acc).1 = acc.1 ++ rs ∧
      List.Forall₂ (fun r seg => ∃ k, r = List.take k seg) rs ss := by
  induction ss with
  | nil => exact fun acc => ⟨[], by simp, List.Forall₂.nil⟩
  | cons seg tl ih =>
    intro acc
    obtain ⟨r, i, hstep, k, hk⟩ := silence_step_shape bytes msl acc seg
    obtain ⟨rs', hrs', hfa⟩ := ih (silence_step bytes msl acc seg)
    refine ⟨r :: rs', ?_, List.Forall₂.cons ⟨k, hk⟩ hfa⟩
    rw [List.foldl_cons, hrs', hstep]
    simp

lemma np_split_flatten (x : List β) (idx : List ℕ) :
    ∀ prev : ℕ, (∀ i ∈ idx, prev ≤ i) → idx.Pairwise (· ≤ ·) →
    (np_split x idx prev).flatten = x.drop prev := by
  induction idx with
  | nil => intro prev _ _; simp [np_split]
  | cons i tl ih =>
    intro prev hall hsort
    rw [List.pairwise_cons] at hsort
    simp only [np_split, List.flatten_cons]
    rw [ih i hsort.1 hsort.2]
    have hprev : prev ≤ i := hall i (List.mem_cons_self i tl)
    have hd := List.drop_take_append_drop x prev (i - prev)
    rw [show prev + (i - prev) = i from by omega] at hd
    exact hd

lemma starts_pairwise_le (input : List Bool) :
    ((consecutive_values input).1.drop 1).Pairwise (· ≤ ·) := by
  unfold consecutive_values
  split
  · simp
  · refine List.Pairwise.drop (List.Pairwise.imp le_of_lt ?_)
    exact List.Pairwise.filter _ (List.pairwise_lt_range _)

lemma silence_segments_flatten (source : List α) :
    (silence_segments source).flatten = source := by
  unfold silence_segments
  rw [np_split_flatten _ _ 0 (fun i _ => Nat.zero_le i) (starts_pairwise_le _)]
  exact List.drop_zero _

lemma forall2_take_flatten_sublist (rs ss : List (List α))
    (h : List.Forall₂ (fun r seg => ∃ k, r = List.take k seg) rs ss) :
    rs.flatten.Sublist ss.flatten := by
  induction h with
  | nil => simp
  | cons hrel _ ih =>
    obtain ⟨k, rfl⟩ := hrel
    simp only [List.flatten_cons]
    exact List.Sublist.append (List.take_sublist _ _) ih

/-- Claim C10: whenever silence-interval encode succeeds, the stego is
the in-order concatenation of per-segment takes of the cover's
silence-delimited segments — every stego sample is a cover sample, the
kept samples keep the cover's order (the stego is a sublist of the
cover), and the stego is no longer than the cover. -/
theorem C10_silence_stego_structure (source : List ℚ) (secret : List ℕ) (msl : ℕ)
    (stego : List ℚ) (l : ℕ)
    (h : silence_encode source secret msl = .ok (stego, l)) :
    (∃ pieces, List.Forall₂ (fun p seg => ∃ k, p = List.take k seg) pieces
        (silence_segments source) ∧ stego = pieces.flatten) ∧
    stego.Sublist source ∧ stego.length ≤ source.length := by
  have hmain : ∃ pieces, List.Forall₂ (fun p seg => ∃ k, p = List.take k seg) pieces
      (silence_segments source) ∧ stego = pieces.flatten := by
    unfold silence_encode at h
    split_ifs at h
    · -- empty payload: the stego is the cover itself
      simp only [Except.ok.injEq, Prod.mk.injEq] at h
      refine ⟨silence_segments source, ?_, ?_⟩
      · rw [List.forall₂_same]
        exact fun seg _ => ⟨seg.length, (List.take_length seg).symm⟩
      · rw [silence_segments_flatten, ← h.1]
    · dsimp only at h
      rcases hm : split_to_segments_of_len_n (secret ++
        List.replicate ((secret.length + 3) / 4 * 4 - secret.length) 0) 4 with _ | p
      · rw [hm] at h
        simp at h
      · rw [hm] at h
        obtain ⟨groups, rest⟩ := p
        dsimp only at h
        split_ifs at h
        simp only [Except.ok.injEq, Prod.mk.injEq] at h
        obtain ⟨rs, hrs, hfa⟩ := silence_walk_prefixes
          ((groups.map packRow).flatten) msl (silence_segments source) ([], 0)
        refine ⟨rs, hfa, ?_⟩
        rw [← h.1, hrs]
        simp
  obtain ⟨pieces, hfa, hflat⟩ := hmain
  have hsub : stego.Sublist source := by
    rw [hflat, ← silence_segments_flatten source]
    exact forall2_take_flatten_sublist _ _ hfa
  exact ⟨⟨pieces, hfa, hflat⟩, hsub, hsub.length_le⟩

lemma foldr_max_replicate_zero (n : ℕ) : (List.replicate n (0 : ℚ)).foldr max 0 = 0 := by
  induction n with
  | zero => rfl
  | succ k ih => rw [List.replicate_succ, List.foldr_cons, ih, max_self]

lemma silence_flags_zeros :
    silence_flags (List.replicate 19 (0 : ℚ)) = List.replicate 19 true := by
  have hmax : maxAbs (List.replicate 19 (0 : ℚ)) = 0 := by
    unfold maxAbs
    rw [List.map_replicate, abs_zero]
    exact foldr_max_replicate_zero 19
  have hdec : (decide (|(0 : ℚ)| ≤ 0.15 * maxAbs (List.replicate 19 (0 : ℚ)))) = true := by
    rw [decide_eq_true_eq, hmax]
    norm_num
  unfold silence_flags
  rw [List.map_replicate, hdec]

lemma silence_encode_concrete :
    silence_encode (List.replicate 19 (0 : ℚ)) [1] 2
      = .ok (List.replicate 17 (0 : ℚ), 1) := by
  unfold silence_encode silence_segments
  rw [silence_flags_zeros]
  rfl

theorem C10_silence_stego_structure_witness :
    (List.replicate 17 (0 : ℚ)).Sublist (List.replicate 19 (0 : ℚ)) ∧
      (List.replicate 17 (0 : ℚ)).length ≤ (List.replicate 19 (0 : ℚ)).length :=
  let h := C10_silence_stego_structure (List.replicate 19 (0 : ℚ)) [1] 2
    (List.replicate 17 (0 : ℚ)) 1 silence_encode_concrete
  ⟨h.2.1, h.2.2⟩

end AStego
